import Mathlib

/-!
Neighbourhood queries of `src-alt/triad-census-an.cpp`.

A shallow embedding of the functions `actor_nbhd_1`, `event_nbhd_1`,
`actor_nbhd_2`, `tetrahedral_C` and `triad_census_edgelist`, followed by the
properties established about them.

* An `IntegerMatrix el` with two columns is a list of rows `(el(i,0), el(i,1))`;
  `el.nrow()` is its length.
* A `std::vector<int>` is a `List Int`; `push_back` appends at the end and
  `std::find(v.begin(), v.end(), x) != v.end()` is list membership.
* A `for (i = 0; i < m; i++)` loop is a left fold over `List.range m`.
* The entries are only ever compared for equality, so `int` is `Int`; the one
  arithmetic operation, `n + 2` on an `unsigned`, is taken modulo `2 ^ 32`.
-/

namespace Bitriad

/-- The two-column `IntegerMatrix`: row `i` is `(el(i,0), el(i,1))`, an
(actor, event) pair. -/
abbrev EdgeList := List (Int × Int)

/-- The call `el.nrow()`. -/
def nrow (el : EdgeList) : Nat := el.length

/-- The entry `el(i, 0)`. -/
def col0 (el : EdgeList) (i : Nat) : Int := (el.getD i (0, 0)).1

/-- The entry `el(i, 1)`. -/
def col1 (el : EdgeList) (i : Nat) : Int := (el.getD i (0, 0)).2

/-- The value `List::create(Named("d0") = ..., Named("d1") = ...)`. -/
structure Nbhd1 where
  d0 : Int
  d1 : List Int
deriving DecidableEq, Repr

/-- The value `List::create(Named("d0") = ..., Named("d1") = ..., Named("d2") = ...)`. -/
structure Nbhd2 where
  d0 : Int
  d1 : List Int
  d2 : List Int
deriving DecidableEq, Repr

/-- Body of the loop of `actor_nbhd_1` (source lines 13-21) at index `i`. -/
def actor_nbhd_1_body (el : EdgeList) (q : Int) (n1 : List Int) (i : Nat) : List Int :=
  if col0 el i = q then
    if col1 el i ∈ n1 then n1
    else n1 ++ [col1 el i]
  else n1

/-- The vector `n1` of `actor_nbhd_1` after the iterations `i = 0 .. k-1`. -/
def actor_nbhd_1_loop (el : EdgeList) (q : Int) (k : Nat) : List Int :=
  (List.range k).foldl (actor_nbhd_1_body el q) []

/-- Function `actor_nbhd_1` (source lines 6-25). -/
def actor_nbhd_1 (el : EdgeList) (q : Int) : Nbhd1 :=
  let m := nrow el
  let n1 := actor_nbhd_1_loop el q m
  { d0 := q, d1 := n1 }

/-- Body of the loop of `event_nbhd_1` (source lines 34-42) at index `i`. -/
def event_nbhd_1_body (el : EdgeList) (a : Int) (n1 : List Int) (i : Nat) : List Int :=
  if col1 el i = a then
    if col0 el i ∈ n1 then n1
    else n1 ++ [col0 el i]
  else n1

/-- The vector `n1` of `event_nbhd_1` after the iterations `i = 0 .. k-1`. -/
def event_nbhd_1_loop (el : EdgeList) (a : Int) (k : Nat) : List Int :=
  (List.range k).foldl (event_nbhd_1_body el a) []

/-- Function `event_nbhd_1` (source lines 27-46). -/
def event_nbhd_1 (el : EdgeList) (a : Int) : Nbhd1 :=
  let m := nrow el
  let n1 := event_nbhd_1_loop el a m
  { d0 := a, d1 := n1 }

/-- Body of the inner loop of `actor_nbhd_2` (source lines 62-73) at index `j`,
inside the outer iteration `i`. -/
def actor_nbhd_2_inner_body (el : EdgeList) (i : Nat) (n2 : List Int) (j : Nat) : List Int :=
  if j = i then n2
  else if col1 el j = col1 el i then
    if col0 el j ∈ n2 then n2
    else n2 ++ [col0 el j]
  else n2

/-- The inner loop `for (j = 0; j < m; j++)` of `actor_nbhd_2`, started on `n2`. -/
def actor_nbhd_2_inner (el : EdgeList) (i : Nat) (n2 : List Int) : List Int :=
  (List.range (nrow el)).foldl (actor_nbhd_2_inner_body el i) n2

/-- Body of the outer loop of `actor_nbhd_2` (source lines 56-76) at index `i`;
the state is the pair `(n1, n2)`. -/
def actor_nbhd_2_body (el : EdgeList) (q : Int) (s : List Int × List Int) (i : Nat) :
    List Int × List Int :=
  if col0 el i = q then
    if col1 el i ∈ s.1 then s
    else (s.1 ++ [col1 el i], actor_nbhd_2_inner el i s.2)
  else s

/-- The vectors `(n1, n2)` of `actor_nbhd_2` after the outer iterations
`i = 0 .. k-1`. -/
def actor_nbhd_2_loop (el : EdgeList) (q : Int) (k : Nat) : List Int × List Int :=
  (List.range k).foldl (actor_nbhd_2_body el q) ([], [])

/-- Function `actor_nbhd_2` (source lines 48-81). -/
def actor_nbhd_2 (el : EdgeList) (q : Int) : Nbhd2 :=
  let m := nrow el
  let s := actor_nbhd_2_loop el q m
  { d0 := q, d1 := s.1, d2 := s.2 }

/-- Number of values of the 32-bit type `unsigned`: arithmetic on it is modulo
this number. -/
def UINT_RANGE : Nat := 2 ^ 32

/-- Modelled from the spec: `choose_C` is called by `tetrahedral_C` and by
`triad_census_edgelist` but is defined nowhere in the source file. The spec
asks for the count to be "computed exactly via integer binomial coefficients",
so `choose_C n k` is the binomial coefficient `C(n, k)`. -/
def choose_C (n k : Nat) : Nat := Nat.choose n k

/-- Function `tetrahedral_C` (source lines 83-85): the sum `n + 2` is formed in
`unsigned` arithmetic, and the value handed back by `choose_C` leaves the
function as an `unsigned`. -/
def tetrahedral_C (n : Nat) : Nat :=
  choose_C ((n + 2) % UINT_RANGE) 3 % UINT_RANGE

/-- Function `triad_census_edgelist` (source lines 92-99). Its body declares the
local array `is` of `choose_C(actors, 3)` ints, and the closing brace follows
the comment `// Loop over actors`: nothing is counted and there is no `return`
statement, so no `IntegerMatrix` comes back. The absent table is `none`. -/
def triad_census_edgelist (_el : EdgeList) (actors : Int) : Option (List (List Int)) :=
  let _is_size : Nat := choose_C actors.toNat 3
  none

/-- The mirrored edge list of the claim about `event_nbhd_1`: `el` with the two
columns of every row swapped. -/
def swap_columns (el : EdgeList) : EdgeList := el.map (fun r => (r.2, r.1))

/-- The event column of the rows of `el` whose actor is `q`, in row order. -/
def events_of (el : EdgeList) (q : Int) : List Int :=
  (el.filter (fun r => r.1 = q)).map (fun r => r.2)

/-- Keeps only the first occurrence of each value of a list, in the order of the
list: the head stays, and it is removed from what is kept of the tail. -/
def keep_first : List Int → List Int
  | [] => []
  | x :: xs => x :: (keep_first xs).filter (fun y => y ≠ x)

/-! ## Auxiliary facts about the loops -/

/-- A row `(a, e)` occurs in `el` exactly when some index below `nrow el` holds it. -/
theorem row_mem_iff (el : EdgeList) (a e : Int) :
    (a, e) ∈ el ↔ ∃ i, i < nrow el ∧ col0 el i = a ∧ col1 el i = e := by
  unfold nrow col0 col1
  constructor
  · intro h
    obtain ⟨i, hi, hrow⟩ := List.mem_iff_getElem.mp h
    refine ⟨i, hi, ?_, ?_⟩ <;> rw [List.getD_eq_getElem _ _ hi, hrow]
  · rintro ⟨i, hi, h0, h1⟩
    rw [List.getD_eq_getElem _ _ hi] at h0 h1
    have : el[i] = (a, e) := Prod.ext h0 h1
    exact this ▸ List.getElem_mem hi

/-- Membership in the result of a loop that appends `v x` whenever the guard
`c x` holds and `v x` is not yet present. -/
theorem mem_foldl_guarded_push {α : Type} (c : α → Prop) [DecidablePred c] (v : α → Int)
    (xs : List α) (init : List Int) (p : Int) :
    p ∈ xs.foldl (fun acc x => if c x then (if v x ∈ acc then acc else acc ++ [v x]) else acc) init
      ↔ p ∈ init ∨ ∃ x, x ∈ xs ∧ c x ∧ v x = p := by
  induction xs generalizing init with
  | nil => simp
  | cons y ys ih =>
    rw [List.foldl_cons, ih]
    by_cases hc : c y
    · by_cases hm : v y ∈ init
      · simp only [hc, hm, if_true, List.mem_cons]
        constructor
        · rintro (h | ⟨x, hx, hcx, hv⟩)
          · exact Or.inl h
          · exact Or.inr ⟨x, Or.inr hx, hcx, hv⟩
        · rintro (h | ⟨x, hx | hx, hcx, hv⟩)
          · exact Or.inl h
          · subst hx; subst hv; exact Or.inl hm
          · exact Or.inr ⟨x, hx, hcx, hv⟩
      · simp only [hc, hm, if_true, if_false, List.mem_cons, List.mem_append,
          List.not_mem_nil, or_false]
        constructor
        · rintro ((h | h) | ⟨x, hx, hcx, hv⟩)
          · exact Or.inl h
          · exact Or.inr ⟨y, Or.inl rfl, hc, h.symm⟩
          · exact Or.inr ⟨x, Or.inr hx, hcx, hv⟩
        · rintro (h | ⟨x, hx | hx, hcx, hv⟩)
          · exact Or.inl (Or.inl h)
          · subst hx; exact Or.inl (Or.inr hv.symm)
          · exact Or.inr ⟨x, hx, hcx, hv⟩
    · simp only [hc, if_false, List.mem_cons]
      constructor
      · rintro (h | ⟨x, hx, hcx, hv⟩)
        · exact Or.inl h
        · exact Or.inr ⟨x, Or.inr hx, hcx, hv⟩
      · rintro (h | ⟨x, hx | hx, hcx, hv⟩)
        · exact Or.inl h
        · subst hx; exact absurd hcx hc
        · exact Or.inr ⟨x, hx, hcx, hv⟩

/-- The guarded-append loop keeps a duplicate-free vector duplicate-free. -/
theorem nodup_foldl_guarded_push {α : Type} (c : α → Prop) [DecidablePred c] (v : α → Int)
    (xs : List α) (init : List Int) (h : init.Nodup) :
    (xs.foldl (fun acc x => if c x then (if v x ∈ acc then acc else acc ++ [v x]) else acc)
      init).Nodup := by
  induction xs generalizing init with
  | nil => simpa using h
  | cons y ys ih =>
    rw [List.foldl_cons]
    apply ih
    by_cases hc : c y
    · by_cases hm : v y ∈ init
      · simpa [hc, hm] using h
      · simp only [hc, hm, if_true, if_false]
        exact List.Nodup.append h (List.nodup_singleton _) (by simpa using hm)
    · simpa [hc] using h

/-- The inner loop body of `actor_nbhd_2` in guarded-append form. -/
theorem actor_nbhd_2_inner_body_eq (el : EdgeList) (i : Nat) :
    actor_nbhd_2_inner_body el i =
      fun n2 j => if (j ≠ i ∧ col1 el j = col1 el i) then
        (if col0 el j ∈ n2 then n2 else n2 ++ [col0 el j]) else n2 := by
  funext n2 j
  unfold actor_nbhd_2_inner_body
  by_cases h1 : j = i
  · simp [h1]
  · by_cases h2 : col1 el j = col1 el i <;> simp [h1, h2]

/-- Membership in `n1` of `actor_nbhd_1` after `k` iterations. -/
theorem mem_actor_nbhd_1_loop (el : EdgeList) (q : Int) (k : Nat) (e : Int) :
    e ∈ actor_nbhd_1_loop el q k ↔ ∃ i, i < k ∧ col0 el i = q ∧ col1 el i = e := by
  have h := mem_foldl_guarded_push (fun i => col0 el i = q) (col1 el) (List.range k) [] e
  simp only [List.not_mem_nil, false_or, List.mem_range] at h
  exact h

/-- Membership in `n1` of `event_nbhd_1` after `k` iterations. -/
theorem mem_event_nbhd_1_loop (el : EdgeList) (a : Int) (k : Nat) (x : Int) :
    x ∈ event_nbhd_1_loop el a k ↔ ∃ i, i < k ∧ col1 el i = a ∧ col0 el i = x := by
  have h := mem_foldl_guarded_push (fun i => col1 el i = a) (col0 el) (List.range k) [] x
  simp only [List.not_mem_nil, false_or, List.mem_range] at h
  exact h

/-- Membership in `n2` after one run of the inner loop of `actor_nbhd_2`. -/
theorem mem_actor_nbhd_2_inner (el : EdgeList) (i : Nat) (n2 : List Int) (p : Int) :
    p ∈ actor_nbhd_2_inner el i n2 ↔
      p ∈ n2 ∨ ∃ j, j < nrow el ∧ j ≠ i ∧ col1 el j = col1 el i ∧ col0 el j = p := by
  unfold actor_nbhd_2_inner
  rw [actor_nbhd_2_inner_body_eq, mem_foldl_guarded_push]
  simp only [List.mem_range, and_assoc]

/-- The inner loop of `actor_nbhd_2` keeps `n2` duplicate-free. -/
theorem nodup_actor_nbhd_2_inner (el : EdgeList) (i : Nat) (n2 : List Int) (h : n2.Nodup) :
    (actor_nbhd_2_inner el i n2).Nodup := by
  unfold actor_nbhd_2_inner
  rw [actor_nbhd_2_inner_body_eq]
  exact nodup_foldl_guarded_push _ _ _ _ h

/-- One more iteration of the loop of `actor_nbhd_1`. -/
theorem actor_nbhd_1_loop_succ (el : EdgeList) (q : Int) (k : Nat) :
    actor_nbhd_1_loop el q (k + 1) = actor_nbhd_1_body el q (actor_nbhd_1_loop el q k) k := by
  simp [actor_nbhd_1_loop, List.range_succ, List.foldl_append]

/-- One more iteration of the outer loop of `actor_nbhd_2`. -/
theorem actor_nbhd_2_loop_succ (el : EdgeList) (q : Int) (k : Nat) :
    actor_nbhd_2_loop el q (k + 1) = actor_nbhd_2_body el q (actor_nbhd_2_loop el q k) k := by
  simp [actor_nbhd_2_loop, List.range_succ, List.foldl_append]

/-- The `n1` component of the outer loop of `actor_nbhd_2` evolves exactly as
the vector `n1` of `actor_nbhd_1`. -/
theorem actor_nbhd_2_loop_fst (el : EdgeList) (q : Int) (k : Nat) :
    (actor_nbhd_2_loop el q k).1 = actor_nbhd_1_loop el q k := by
  induction k with
  | zero => rfl
  | succ k ih =>
    rw [actor_nbhd_2_loop_succ, actor_nbhd_1_loop_succ, ← ih]
    unfold actor_nbhd_2_body actor_nbhd_1_body
    by_cases h0 : col0 el k = q
    · by_cases h1 : col1 el k ∈ (actor_nbhd_2_loop el q k).1 <;> simp [h0, h1]
    · simp [h0]

/-- The `n2` component of the outer loop of `actor_nbhd_2` is duplicate-free. -/
theorem nodup_actor_nbhd_2_loop_snd (el : EdgeList) (q : Int) (k : Nat) :
    (actor_nbhd_2_loop el q k).2.Nodup := by
  induction k with
  | zero => exact List.nodup_nil
  | succ k ih =>
    rw [actor_nbhd_2_loop_succ]
    unfold actor_nbhd_2_body
    by_cases h0 : col0 el k = q
    · by_cases h1 : col1 el k ∈ (actor_nbhd_2_loop el q k).1
      · simpa [h0, h1] using ih
      · simpa [h0, h1] using nodup_actor_nbhd_2_inner el k _ ih
    · simpa [h0] using ih

/-- Membership in `n2` of `actor_nbhd_2` after `k` outer iterations: `p` was
appended by the inner loop of an iteration `i < k` that appended to `n1`. -/
theorem mem_actor_nbhd_2_loop_snd (el : EdgeList) (q : Int) (k : Nat) (p : Int) :
    p ∈ (actor_nbhd_2_loop el q k).2 ↔
      ∃ i, i < k ∧ col0 el i = q ∧ col1 el i ∉ actor_nbhd_1_loop el q i ∧
        ∃ j, j < nrow el ∧ j ≠ i ∧ col1 el j = col1 el i ∧ col0 el j = p := by
  induction k with
  | zero => simp [actor_nbhd_2_loop]
  | succ k ih =>
    rw [actor_nbhd_2_loop_succ]
    have hstep : ∀ P : Nat → Prop, (∃ i, i < k + 1 ∧ P i) ↔ ((∃ i, i < k ∧ P i) ∨ P k) := by
      intro P
      constructor
      · rintro ⟨i, hi, hP⟩
        rcases Nat.lt_succ_iff_lt_or_eq.mp hi with h | h
        · exact Or.inl ⟨i, h, hP⟩
        · exact Or.inr (h ▸ hP)
      · rintro (⟨i, hi, hP⟩ | hP)
        · exact ⟨i, Nat.lt_succ_of_lt hi, hP⟩
        · exact ⟨k, Nat.lt_succ_self k, hP⟩
    rw [hstep, ← ih]
    unfold actor_nbhd_2_body
    by_cases h0 : col0 el k = q
    · by_cases h1 : col1 el k ∈ (actor_nbhd_2_loop el q k).1
      · have h1' := h1
        rw [actor_nbhd_2_loop_fst] at h1'
        simp [h0, h1, h1']
      · have h1' := h1
        rw [actor_nbhd_2_loop_fst] at h1'
        simp only [h0, h1, h1', if_true, if_false, not_false_eq_true, true_and]
        exact mem_actor_nbhd_2_inner el k _ p
    · simp [h0]

/-- Every element of `n1` was appended at some iteration at which it was absent. -/
theorem first_push_actor_nbhd_1_loop (el : EdgeList) (q : Int) (k : Nat) (e : Int)
    (h : e ∈ actor_nbhd_1_loop el q k) :
    ∃ i, i < k ∧ col0 el i = q ∧ col1 el i = e ∧ e ∉ actor_nbhd_1_loop el q i := by
  induction k with
  | zero => simp [actor_nbhd_1_loop] at h
  | succ k ih =>
    by_cases hk : e ∈ actor_nbhd_1_loop el q k
    · obtain ⟨i, hi, h0, h1, h2⟩ := ih hk
      exact ⟨i, Nat.lt_succ_of_lt hi, h0, h1, h2⟩
    · rw [actor_nbhd_1_loop_succ] at h
      unfold actor_nbhd_1_body at h
      by_cases h0 : col0 el k = q
      · by_cases h1 : col1 el k ∈ actor_nbhd_1_loop el q k
        · simp only [h0, h1, if_true] at h
          exact absurd h hk
        · simp only [h0, h1, if_true, if_false, List.mem_append, List.mem_singleton] at h
          rcases h with h | h
          · exact absurd h hk
          · exact ⟨k, Nat.lt_succ_self k, h0, h.symm, hk⟩
      · simp only [h0, if_false] at h
        exact absurd h hk

/-- The distance-1 list of `actor_nbhd_1` holds `e` exactly when `(q, e)` is a row. -/
theorem mem_actor_nbhd_1_d1 (el : EdgeList) (q e : Int) :
    e ∈ (actor_nbhd_1 el q).d1 ↔ (q, e) ∈ el := by
  show e ∈ actor_nbhd_1_loop el q (nrow el) ↔ _
  rw [mem_actor_nbhd_1_loop, row_mem_iff]

/-- The distance-1 list of `event_nbhd_1` holds `x` exactly when `(x, a)` is a row. -/
theorem mem_event_nbhd_1_d1 (el : EdgeList) (a x : Int) :
    x ∈ (event_nbhd_1 el a).d1 ↔ (x, a) ∈ el := by
  show x ∈ event_nbhd_1_loop el a (nrow el) ↔ _
  rw [mem_event_nbhd_1_loop, row_mem_iff]
  constructor
  · rintro ⟨i, hi, h1, h0⟩
    exact ⟨i, hi, h0, h1⟩
  · rintro ⟨i, hi, h0, h1⟩
    exact ⟨i, hi, h1, h0⟩

/-- The list `d1` of `actor_nbhd_2` is the list `d1` of `actor_nbhd_1`. -/
theorem actor_nbhd_2_d1_eq (el : EdgeList) (q : Int) :
    (actor_nbhd_2 el q).d1 = (actor_nbhd_1 el q).d1 :=
  actor_nbhd_2_loop_fst el q (nrow el)

/-- An actor `p` other than `q` is in the distance-2 list of `actor_nbhd_2`
exactly when `p` and `q` have a common event. -/
theorem mem_actor_nbhd_2_d2_of_ne (el : EdgeList) (q p : Int) (hp : p ≠ q) :
    p ∈ (actor_nbhd_2 el q).d2 ↔ ∃ e, (q, e) ∈ el ∧ (p, e) ∈ el := by
  show p ∈ (actor_nbhd_2_loop el q (nrow el)).2 ↔ _
  rw [mem_actor_nbhd_2_loop_snd]
  constructor
  · rintro ⟨i, hi, h0, _, j, hj, _, h1, h2⟩
    exact ⟨col1 el i, (row_mem_iff el q _).mpr ⟨i, hi, h0, rfl⟩,
      (row_mem_iff el p _).mpr ⟨j, hj, h2, h1⟩⟩
  · rintro ⟨e, hq, hpe⟩
    have he : e ∈ actor_nbhd_1_loop el q (nrow el) :=
      (mem_actor_nbhd_1_loop el q _ e).mpr ((row_mem_iff el q e).mp hq)
    obtain ⟨i, hi, h0, h1, hnot⟩ := first_push_actor_nbhd_1_loop el q _ e he
    obtain ⟨j, hj, hj0, hj1⟩ := (row_mem_iff el p e).mp hpe
    refine ⟨i, hi, h0, h1 ▸ hnot, j, hj, ?_, hj1.trans h1.symm, hj0⟩
    intro hji
    apply hp
    rw [← hj0, hji, h0]

/-- Two edge lists with the same set of rows give `actor_nbhd_2` the same set
of distance-1 events, and the same distance-2 actors apart from `q` itself. -/
theorem actor_nbhd_2_same_rows (el1 el2 : EdgeList) (q : Int)
    (hrows : ∀ r : Int × Int, r ∈ el1 ↔ r ∈ el2) :
    (∀ e : Int, e ∈ (actor_nbhd_2 el1 q).d1 ↔ e ∈ (actor_nbhd_2 el2 q).d1) ∧
    (∀ p : Int, p ≠ q → (p ∈ (actor_nbhd_2 el1 q).d2 ↔ p ∈ (actor_nbhd_2 el2 q).d2)) := by
  refine ⟨fun e => ?_, fun p hp => ?_⟩
  · rw [actor_nbhd_2_d1_eq, actor_nbhd_2_d1_eq, mem_actor_nbhd_1_d1, mem_actor_nbhd_1_d1, hrows]
  · rw [mem_actor_nbhd_2_d2_of_ne el1 q p hp, mem_actor_nbhd_2_d2_of_ne el2 q p hp]
    simp only [hrows]

/-- Closed form of the binomial coefficient `C(n + 2, 3)`. -/
theorem choose_three_closed_form (n : Nat) :
    6 * Nat.choose (n + 2) 3 = n * (n + 1) * (n + 2) := by
  induction n with
  | zero => rfl
  | succ n ih =>
    have h2 : 2 * Nat.choose (n + 2) 2 = (n + 2) * (n + 1) := by
      rw [Nat.choose_two_right, show n + 2 - 1 = n + 1 from rfl]
      have hev : 2 ∣ (n + 2) * (n + 1) := by
        have := Nat.even_mul_succ_self (n + 1)
        rw [Nat.mul_comm]
        exact even_iff_two_dvd.mp this
      exact Nat.mul_div_cancel' hev
    have h3 : Nat.choose (n + 1 + 2) 3 = Nat.choose (n + 2) 2 + Nat.choose (n + 2) 3 := by
      rw [show n + 1 + 2 = (n + 2) + 1 from rfl, Nat.choose_succ_succ]
    rw [h3]
    nlinarith [ih, h2]

/-- Swapping the columns keeps the number of rows. -/
theorem nrow_swap_columns (el : EdgeList) : nrow (swap_columns el) = nrow el := by
  simp [nrow, swap_columns]

/-- Column 0 of the mirrored edge list is column 1 of the edge list. -/
theorem col0_swap_columns (el : EdgeList) (i : Nat) : col0 (swap_columns el) i = col1 el i := by
  unfold col0 col1 swap_columns
  have h := List.getD_map (l := el) (d := ((0 : Int), (0 : Int))) (n := i)
    (fun r : Int × Int => (r.2, r.1))
  simp only at h
  rw [h]

/-- Column 1 of the mirrored edge list is column 0 of the edge list. -/
theorem col1_swap_columns (el : EdgeList) (i : Nat) : col1 (swap_columns el) i = col0 el i := by
  unfold col0 col1 swap_columns
  have h := List.getD_map (l := el) (d := ((0 : Int), (0 : Int))) (n := i)
    (fun r : Int × Int => (r.2, r.1))
  simp only at h
  rw [h]

/-- Reading a list index by index over `0 .. length - 1` gives the list back. -/
theorem map_getD_range (l : EdgeList) (d : Int × Int) :
    (List.range l.length).map (fun i => l.getD i d) = l := by
  apply List.ext_getElem
  · simp
  · intro n h1 h2
    simp only [List.getElem_map, List.getElem_range]
    exact List.getD_eq_getElem _ _ h2

/-- The loop of `actor_nbhd_1` over all row indices, as a fold over the rows. -/
theorem actor_nbhd_1_loop_rows (el : EdgeList) (q : Int) :
    actor_nbhd_1_loop el q (nrow el) =
      el.foldl (fun acc r => if r.1 = q then (if r.2 ∈ acc then acc else acc ++ [r.2]) else acc)
        [] := by
  have h := List.foldl_map (fun i => el.getD i (0, 0))
    (fun (acc : List Int) (r : Int × Int) =>
      if r.1 = q then (if r.2 ∈ acc then acc else acc ++ [r.2]) else acc)
    (List.range el.length) []
  rw [map_getD_range] at h
  rw [h]
  rfl

/-- A guarded-append fold over rows is the plain append-if-absent fold over the
selected column of the rows passing the guard. -/
theorem foldl_guarded_rows (q : Int) (el : EdgeList) (init : List Int) :
    el.foldl (fun acc r => if r.1 = q then (if r.2 ∈ acc then acc else acc ++ [r.2]) else acc)
        init =
      (events_of el q).foldl (fun acc x => if x ∈ acc then acc else acc ++ [x]) init := by
  induction el generalizing init with
  | nil => rfl
  | cons r rs ih =>
    by_cases h : r.1 = q
    · simp only [List.foldl_cons, h, if_true, events_of, List.filter_cons, decide_True,
        List.map_cons]
      exact ih _
    · simp only [List.foldl_cons, h, if_false, events_of, List.filter_cons, decide_False]
      exact ih _

/-- The append-if-absent fold started on `acc` appends to `acc` the first
occurrences of the values that are not in `acc`. -/
theorem foldl_push_absent_eq (xs : List Int) (acc : List Int) :
    xs.foldl (fun acc x => if x ∈ acc then acc else acc ++ [x]) acc =
      acc ++ (keep_first xs).filter (fun y => y ∉ acc) := by
  induction xs generalizing acc with
  | nil => simp [keep_first]
  | cons x xs ih =>
    rw [List.foldl_cons, ih]
    by_cases hx : x ∈ acc
    · simp only [hx, if_true, keep_first, List.filter_cons, not_true_eq_false, decide_False,
        List.filter_filter]
      congr 1
      apply List.filter_congr
      intro y _
      by_cases hy : y ∈ acc
      · simp [hy]
      · have : y ≠ x := fun h => hy (h ▸ hx)
        simp [hy, this]
    · simp only [hx, if_false, keep_first, List.filter_cons, not_false_eq_true, decide_True,
        List.filter_filter, List.append_assoc, List.singleton_append]
      congr 2
      apply List.filter_congr
      intro y _
      by_cases hy : y ∈ acc <;> by_cases hyx : y = x <;> simp [hy, hyx]

/-- The first occurrences of a list have the same elements as the list. -/
theorem mem_keep_first (xs : List Int) (y : Int) : y ∈ keep_first xs ↔ y ∈ xs := by
  induction xs with
  | nil => simp [keep_first]
  | cons x xs ih =>
    by_cases h : y = x <;> simp [keep_first, ih, h]

/-- The first occurrences of a list contain no value twice. -/
theorem nodup_keep_first (xs : List Int) : (keep_first xs).Nodup := by
  induction xs with
  | nil => simp [keep_first]
  | cons x xs ih =>
    simp only [keep_first, List.nodup_cons, List.mem_filter, ne_eq, not_true_eq_false,
      decide_False, and_false, not_false_eq_true, true_and, Bool.false_eq_true]
    exact ih.filter _

/-- The first occurrences of a list form a sublist of it. -/
theorem keep_first_sublist (xs : List Int) : (keep_first xs).Sublist xs := by
  induction xs with
  | nil => simp [keep_first]
  | cons x xs ih =>
    exact ((List.filter_sublist _).trans ih).cons₂ x

/-- Counting a row with the equality test of pairs or with decidable equality
gives the same number. -/
theorem count_row_eq (el : EdgeList) (x : Int × Int) :
    el.count x = @List.count _ instBEqOfDecidableEq x el := by
  unfold List.count
  apply List.countP_congr
  intro r _
  rw [beq_iff_eq]
  show _ ↔ decide (r = x) = true
  rw [decide_eq_true_iff]

/-- A row occurs at least twice in `el` exactly when two different indices
below `nrow el` hold it. -/
theorem two_le_count_iff (el : EdgeList) (a e : Int) :
    2 ≤ el.count (a, e) ↔
      ∃ i j, i < nrow el ∧ j < nrow el ∧ i ≠ j ∧
        (col0 el i = a ∧ col1 el i = e) ∧ (col0 el j = a ∧ col1 el j = e) := by
  rw [count_row_eq, ← List.duplicate_iff_two_le_count, List.duplicate_iff_exists_distinct_get]
  unfold nrow col0 col1
  constructor
  · rintro ⟨n, m, hnm, hn, hm⟩
    refine ⟨n.1, m.1, n.2, m.2, Nat.ne_of_lt hnm, ?_, ?_⟩
    · rw [List.getD_eq_getElem _ _ n.2]
      have : el[n.1] = (a, e) := hn.symm
      rw [this]
      exact ⟨rfl, rfl⟩
    · rw [List.getD_eq_getElem _ _ m.2]
      have : el[m.1] = (a, e) := hm.symm
      rw [this]
      exact ⟨rfl, rfl⟩
  · rintro ⟨i, j, hi, hj, hij, ⟨hi0, hi1⟩, ⟨hj0, hj1⟩⟩
    rw [List.getD_eq_getElem _ _ hi] at hi0 hi1
    rw [List.getD_eq_getElem _ _ hj] at hj0 hj1
    have ei : (a, e) = el.get ⟨i, hi⟩ := (Prod.ext hi0 hi1 : el[i] = (a, e)).symm
    have ej : (a, e) = el.get ⟨j, hj⟩ := (Prod.ext hj0 hj1 : el[j] = (a, e)).symm
    rcases Nat.lt_or_gt_of_ne hij with h | h
    · exact ⟨⟨i, hi⟩, ⟨j, hj⟩, h, ei, ej⟩
    · exact ⟨⟨j, hj⟩, ⟨i, hi⟩, h, ej, ei⟩

/-- The actor `q` is in its own distance-2 list exactly when some row `(q, e)`
occurs at least twice. -/
theorem self_mem_actor_nbhd_2_d2 (el : EdgeList) (q : Int) :
    q ∈ (actor_nbhd_2 el q).d2 ↔ ∃ e : Int, 2 ≤ el.count (q, e) := by
  show q ∈ (actor_nbhd_2_loop el q (nrow el)).2 ↔ _
  rw [mem_actor_nbhd_2_loop_snd]
  constructor
  · rintro ⟨i, hi, h0, _, j, hj, hji, h1, h2⟩
    exact ⟨col1 el i, (two_le_count_iff el q _).mpr
      ⟨i, j, hi, hj, fun h => hji h.symm, ⟨h0, rfl⟩, ⟨h2, h1⟩⟩⟩
  · rintro ⟨e, he⟩
    obtain ⟨i0, j0, hi0, hj0, hne, ⟨hi0a, hi0e⟩, ⟨hj0a, hj0e⟩⟩ := (two_le_count_iff el q e).mp he
    have hmem : e ∈ actor_nbhd_1_loop el q (nrow el) :=
      (mem_actor_nbhd_1_loop el q _ e).mpr ⟨i0, hi0, hi0a, hi0e⟩
    obtain ⟨i, hi, h0, h1, hnot⟩ := first_push_actor_nbhd_1_loop el q _ e hmem
    by_cases hii : i0 = i
    · refine ⟨i, hi, h0, h1 ▸ hnot, j0, hj0, ?_, hj0e.trans h1.symm, hj0a⟩
      intro h
      exact hne (hii.trans h.symm)
    · exact ⟨i, hi, h0, h1 ▸ hnot, i0, hi0, hii, hi0e.trans h1.symm, hi0a⟩

/-! ## The neighbourhood queries -/

/-- C1: for every edge list `el` and every integer `q`, `actor_nbhd_1 el q`
returns `d0 = q` and a list `d1` that holds an integer `e` exactly when some row
of `el` equals `(q, e)`; on `[(0,10),(1,10),(2,20)]` the list `d1` is `[10]` for
`q = 0` and `[20]` for `q = 2`. -/
theorem actor_nbhd_1_rows (el : EdgeList) (q : Int) :
    (actor_nbhd_1 el q).d0 = q ∧
    (∀ e : Int, e ∈ (actor_nbhd_1 el q).d1 ↔ (q, e) ∈ el) ∧
    (actor_nbhd_1 [(0, 10), (1, 10), (2, 20)] 0).d1 = [10] ∧
    (actor_nbhd_1 [(0, 10), (1, 10), (2, 20)] 2).d1 = [20] :=
  ⟨rfl, fun e => mem_actor_nbhd_1_d1 el q e, by decide, by decide⟩

/-- C2: for every edge list `el`, repeated rows included, and every integer
`id`, the lists `d1` of `actor_nbhd_1 el id`, `d1` of `event_nbhd_1 el id`, and
`d1` and `d2` of `actor_nbhd_2 el id` contain no value twice. -/
theorem neighbor_lists_nodup (el : EdgeList) (id : Int) :
    (actor_nbhd_1 el id).d1.Nodup ∧ (event_nbhd_1 el id).d1.Nodup ∧
    (actor_nbhd_2 el id).d1.Nodup ∧ (actor_nbhd_2 el id).d2.Nodup := by
  have h1 : (actor_nbhd_1 el id).d1.Nodup :=
    nodup_foldl_guarded_push (fun i => col0 el i = id) (col1 el) (List.range (nrow el)) []
      List.nodup_nil
  have h2 : (event_nbhd_1 el id).d1.Nodup :=
    nodup_foldl_guarded_push (fun i => col1 el i = id) (col0 el) (List.range (nrow el)) []
      List.nodup_nil
  refine ⟨h1, h2, ?_, nodup_actor_nbhd_2_loop_snd el id (nrow el)⟩
  rw [actor_nbhd_2_d1_eq]
  exact h1

/-- C3: for every edge list `el` and all integers `a` and `e`, the actor `a` is
in `d1` of `event_nbhd_1 el e` if and only if the event `e` is in `d1` of
`actor_nbhd_1 el a`. -/
theorem adjacency_symmetry (el : EdgeList) (a e : Int) :
    a ∈ (event_nbhd_1 el e).d1 ↔ e ∈ (actor_nbhd_1 el a).d1 := by
  rw [mem_event_nbhd_1_d1, mem_actor_nbhd_1_d1]

/-- C4: for every edge list `el`, every actor `q` and every actor `p` different
from `q`, `p` is in `d2` of `actor_nbhd_2 el q` if and only if some event `e`
has both `(q, e)` and `(p, e)` among the rows of `el`, that is, if and only if
`p` is in `d1` of `event_nbhd_1 el e` for some `e` in `d1` of `actor_nbhd_1 el q`. -/
theorem distance_2_membership (el : EdgeList) (q p : Int) (hp : p ≠ q) :
    (p ∈ (actor_nbhd_2 el q).d2 ↔ ∃ e : Int, (q, e) ∈ el ∧ (p, e) ∈ el) ∧
    (p ∈ (actor_nbhd_2 el q).d2 ↔
      ∃ e : Int, e ∈ (actor_nbhd_1 el q).d1 ∧ p ∈ (event_nbhd_1 el e).d1) := by
  refine ⟨mem_actor_nbhd_2_d2_of_ne el q p hp, ?_⟩
  rw [mem_actor_nbhd_2_d2_of_ne el q p hp]
  simp only [mem_actor_nbhd_1_d1, mem_event_nbhd_1_d1]

/-- Instance of C4 on `[(0,10),(1,10),(2,20)]` with `q = 0` and `p = 1`. -/
theorem distance_2_membership_witness :
    (1 : Int) ≠ 0 ∧
    (((1 : Int) ∈ (actor_nbhd_2 [(0, 10), (1, 10), (2, 20)] 0).d2 ↔
        ∃ e : Int, ((0 : Int), e) ∈ [((0 : Int), (10 : Int)), (1, 10), (2, 20)] ∧
          ((1 : Int), e) ∈ [((0 : Int), (10 : Int)), (1, 10), (2, 20)]) ∧
      ((1 : Int) ∈ (actor_nbhd_2 [(0, 10), (1, 10), (2, 20)] 0).d2 ↔
        ∃ e : Int, e ∈ (actor_nbhd_1 [(0, 10), (1, 10), (2, 20)] 0).d1 ∧
          (1 : Int) ∈ (event_nbhd_1 [(0, 10), (1, 10), (2, 20)] e).d1)) :=
  ⟨by decide, distance_2_membership [(0, 10), (1, 10), (2, 20)] 0 1 (by decide)⟩

/-- C5: on the edge list `[(0,10),(0,10)]`, whose row `(0, 10)` is repeated, the
distance-2 list `d2` of `actor_nbhd_2` for `q = 0` is `[0]`: it contains `q`. -/
theorem actor_nbhd_2_self_included :
    (actor_nbhd_2 [(0, 10), (0, 10)] 0).d2 = [0] ∧
    (0 : Int) ∈ (actor_nbhd_2 [(0, 10), (0, 10)] 0).d2 :=
  ⟨by decide, by decide⟩

/-- C6: the edge lists `[(0,10)]` and `[(0,10),(0,10)]` contain the same set of
rows, yet for `q = 0` the list `d2` of `actor_nbhd_2` is empty on the first and
`[0]` on the second. -/
theorem actor_nbhd_2_repeated_row_changes_d2 :
    (∀ r : Int × Int, r ∈ [((0 : Int), (10 : Int))] ↔ r ∈ [((0 : Int), (10 : Int)), (0, 10)]) ∧
    (actor_nbhd_2 [(0, 10)] 0).d2 = [] ∧
    (actor_nbhd_2 [(0, 10), (0, 10)] 0).d2 = [0] ∧
    ¬ (∀ p : Int, p ∈ (actor_nbhd_2 [(0, 10)] 0).d2 ↔
        p ∈ (actor_nbhd_2 [(0, 10), (0, 10)] 0).d2) := by
  refine ⟨fun r => by simp, by decide, by decide, fun h => ?_⟩
  have h0 : (0 : Int) ∈ (actor_nbhd_2 [(0, 10)] 0).d2 := (h 0).mpr (by decide)
  exact absurd h0 (by decide)

/-- C7: an integer `q` that is the actor of no row of `el` gets an empty `d1`
from `actor_nbhd_1` and empty `d1` and `d2` from `actor_nbhd_2`; an integer `a`
that is the event of no row gets an empty `d1` from `event_nbhd_1`; on the empty
edge list every call returns empty lists. -/
theorem empty_neighborhoods :
    (∀ (el : EdgeList) (q : Int), (∀ r ∈ el, r.1 ≠ q) →
      (actor_nbhd_1 el q).d1 = [] ∧ (actor_nbhd_2 el q).d1 = [] ∧
        (actor_nbhd_2 el q).d2 = []) ∧
    (∀ (el : EdgeList) (a : Int), (∀ r ∈ el, r.2 ≠ a) → (event_nbhd_1 el a).d1 = []) ∧
    (∀ x : Int, (actor_nbhd_1 [] x).d1 = [] ∧ (actor_nbhd_2 [] x).d1 = [] ∧
      (actor_nbhd_2 [] x).d2 = [] ∧ (event_nbhd_1 [] x).d1 = []) := by
  refine ⟨fun el q hq => ?_, fun el a ha => ?_, fun x => ⟨rfl, rfl, rfl, rfl⟩⟩
  · have h1 : (actor_nbhd_1 el q).d1 = [] := by
      apply List.eq_nil_iff_forall_not_mem.mpr
      intro e he
      exact hq (q, e) ((mem_actor_nbhd_1_d1 el q e).mp he) rfl
    refine ⟨h1, (actor_nbhd_2_d1_eq el q).trans h1, ?_⟩
    apply List.eq_nil_iff_forall_not_mem.mpr
    intro p hp
    obtain ⟨i, hi, h0, _⟩ := (mem_actor_nbhd_2_loop_snd el q (nrow el) p).mp hp
    exact hq (q, col1 el i) ((row_mem_iff el q _).mpr ⟨i, hi, h0, rfl⟩) rfl
  · apply List.eq_nil_iff_forall_not_mem.mpr
    intro x hx
    exact ha (x, a) ((mem_event_nbhd_1_d1 el a x).mp hx) rfl

/-- Instance of C7 on `[(0,10),(1,10),(2,20)]`: the integer `5` is no actor and
the integer `30` is no event of it. -/
theorem empty_neighborhoods_witness :
    (∀ r ∈ [((0 : Int), (10 : Int)), (1, 10), (2, 20)], r.1 ≠ 5) ∧
    (∀ r ∈ [((0 : Int), (10 : Int)), (1, 10), (2, 20)], r.2 ≠ 30) ∧
    ((actor_nbhd_1 [(0, 10), (1, 10), (2, 20)] 5).d1 = [] ∧
      (actor_nbhd_2 [(0, 10), (1, 10), (2, 20)] 5).d1 = [] ∧
      (actor_nbhd_2 [(0, 10), (1, 10), (2, 20)] 5).d2 = []) ∧
    (event_nbhd_1 [(0, 10), (1, 10), (2, 20)] 30).d1 = [] :=
  ⟨by decide, by decide,
    empty_neighborhoods.1 [(0, 10), (1, 10), (2, 20)] 5 (by decide),
    empty_neighborhoods.2.1 [(0, 10), (1, 10), (2, 20)] 30 (by decide)⟩

/-! ## The counting functions -/

/-- The largest binomial coefficient `C(n + 2, 3)` that fits in an `unsigned`. -/
theorem choose_2954_three : Nat.choose (2952 + 2) 3 = 4291795704 := by
  have h := choose_three_closed_form 2952
  omega

/-- The first binomial coefficient `C(n + 2, 3)` that does not fit in an `unsigned`. -/
theorem choose_2955_three : Nat.choose (2953 + 2) 3 = 4296157285 := by
  have h := choose_three_closed_form 2953
  omega

/-- C8, counterexample: for `n = 2953` the sum `n + 2` does not wrap, while
`C(2955, 3) = 4296157285` exceeds the `unsigned` range, so `tetrahedral_C 2953`
is `1189989`, neither `choose_C (n + 2) 3` nor `n (n + 1) (n + 2) / 6`. -/
theorem tetrahedral_C_wraps :
    2953 + 2 < UINT_RANGE ∧
    tetrahedral_C 2953 = 1189989 ∧
    tetrahedral_C 2953 ≠ choose_C (2953 + 2) 3 ∧
    tetrahedral_C 2953 ≠ 2953 * (2953 + 1) * (2953 + 2) / 6 := by
  have hv : tetrahedral_C 2953 = 1189989 := by
    unfold tetrahedral_C choose_C UINT_RANGE
    rw [show (2953 + 2) % 2 ^ 32 = 2953 + 2 from by norm_num, choose_2955_three]
    norm_num
  refine ⟨by norm_num [UINT_RANGE], hv, ?_, ?_⟩
  · rw [hv]
    unfold choose_C
    rw [choose_2955_three]
    norm_num
  · rw [hv]
    norm_num

/-- C8, amended: for every `n ≤ 2952`, the values for which `C(n + 2, 3)` fits
in an `unsigned`, `tetrahedral_C n` returns `choose_C (n + 2) 3`, which is the
binomial coefficient `C(n + 2, 3) = n (n + 1) (n + 2) / 6`; in particular
`tetrahedral_C 1 = 1`, `tetrahedral_C 2 = 4` and `tetrahedral_C 3 = 10`. -/
theorem tetrahedral_C_closed_form (n : Nat) (hn : n ≤ 2952) :
    tetrahedral_C n = choose_C (n + 2) 3 ∧
    tetrahedral_C n = Nat.choose (n + 2) 3 ∧
    tetrahedral_C n = n * (n + 1) * (n + 2) / 6 ∧
    tetrahedral_C 1 = 1 ∧ tetrahedral_C 2 = 4 ∧ tetrahedral_C 3 = 10 := by
  have hsum : (n + 2) % UINT_RANGE = n + 2 :=
    Nat.mod_eq_of_lt (by unfold UINT_RANGE; omega)
  have hle : Nat.choose (n + 2) 3 ≤ Nat.choose (2952 + 2) 3 :=
    Nat.choose_le_choose 3 (by omega)
  have hfit : Nat.choose (n + 2) 3 < UINT_RANGE := by
    rw [choose_2954_three] at hle
    unfold UINT_RANGE
    omega
  have hval : tetrahedral_C n = Nat.choose (n + 2) 3 := by
    unfold tetrahedral_C choose_C
    rw [hsum, Nat.mod_eq_of_lt hfit]
  have hform : Nat.choose (n + 2) 3 = n * (n + 1) * (n + 2) / 6 := by
    have h := choose_three_closed_form n
    omega
  exact ⟨hval, hval, hval.trans hform, by decide, by decide, by decide⟩

/-- Instance of C8 at `n = 3`. -/
theorem tetrahedral_C_closed_form_witness :
    3 ≤ 2952 ∧
    (tetrahedral_C 3 = choose_C (3 + 2) 3 ∧
      tetrahedral_C 3 = Nat.choose (3 + 2) 3 ∧
      tetrahedral_C 3 = 3 * (3 + 1) * (3 + 2) / 6 ∧
      tetrahedral_C 1 = 1 ∧ tetrahedral_C 2 = 4 ∧ tetrahedral_C 3 = 10) :=
  ⟨by decide, tetrahedral_C_closed_form 3 (by decide)⟩

/-- C9: `triad_census_edgelist` hands back no table, neither on
`[(0,10),(1,10),(2,20)]` with `actors = 3` nor on the empty edge list with
`actors = 5`; no list of counts exists whose sum could be `C(actors, 3)`. -/
theorem triad_census_edgelist_no_table :
    triad_census_edgelist [(0, 10), (1, 10), (2, 20)] 3 = none ∧
    triad_census_edgelist [] 5 = none ∧
    ∀ (el : EdgeList) (actors : Int), triad_census_edgelist el actors = none :=
  ⟨rfl, rfl, fun _ _ => rfl⟩

/-- C10: for every edge list `el` and every integer `q`, `actor_nbhd_2 el q`
returns the same `d0` and the same list `d1`, element for element and in the
same order, as `actor_nbhd_1 el q`. -/
theorem actor_nbhd_2_extends_actor_nbhd_1 (el : EdgeList) (q : Int) :
    (actor_nbhd_2 el q).d0 = (actor_nbhd_1 el q).d0 ∧
    (actor_nbhd_2 el q).d1 = (actor_nbhd_1 el q).d1 :=
  ⟨rfl, actor_nbhd_2_loop_fst el q (nrow el)⟩

/-! ## Order of the lists and the distance-2 relation -/

/-- C11: for every edge list `el` and every integer `a`, `event_nbhd_1 el a`
returns the same `d0` and the same list `d1` as `actor_nbhd_1` on the mirrored
edge list, that is, `el` with the two columns of every row swapped. -/
theorem event_nbhd_1_is_mirrored_actor_nbhd_1 (el : EdgeList) (a : Int) :
    (event_nbhd_1 el a).d0 = (actor_nbhd_1 (swap_columns el) a).d0 ∧
    (event_nbhd_1 el a).d1 = (actor_nbhd_1 (swap_columns el) a).d1 := by
  refine ⟨rfl, ?_⟩
  have hbody : actor_nbhd_1_body (swap_columns el) a = event_nbhd_1_body el a := by
    funext n1 i
    unfold actor_nbhd_1_body event_nbhd_1_body
    rw [col0_swap_columns, col1_swap_columns]
  show event_nbhd_1_loop el a (nrow el) =
    actor_nbhd_1_loop (swap_columns el) a (nrow (swap_columns el))
  rw [nrow_swap_columns]
  unfold event_nbhd_1_loop actor_nbhd_1_loop
  rw [hbody]

/-- C12: for every edge list `el` and every integer `q`, the list `d1` of
`actor_nbhd_1 el q` is the event column of the rows whose actor is `q`, in row
order, with only the first occurrence of each event kept; its length is the
number of distinct events of `q` and is at most the number of rows of `el`. -/
theorem actor_nbhd_1_first_occurrences (el : EdgeList) (q : Int) :
    (actor_nbhd_1 el q).d1 = keep_first (events_of el q) ∧
    (actor_nbhd_1 el q).d1.length = (events_of el q).toFinset.card ∧
    (actor_nbhd_1 el q).d1.length ≤ nrow el := by
  have heq : (actor_nbhd_1 el q).d1 = keep_first (events_of el q) := by
    show actor_nbhd_1_loop el q (nrow el) = _
    rw [actor_nbhd_1_loop_rows, foldl_guarded_rows, foldl_push_absent_eq]
    simp
  refine ⟨heq, ?_, ?_⟩
  · rw [heq, ← List.toFinset_card_of_nodup (nodup_keep_first _)]
    congr 1
    ext y
    simp [mem_keep_first]
  · rw [heq]
    calc (keep_first (events_of el q)).length
        ≤ (events_of el q).length := (keep_first_sublist _).length_le
      _ ≤ nrow el := by
          unfold events_of nrow
          rw [List.length_map]
          exact List.length_filter_le _ _

/-- C13: for every edge list `el` and every actor `q`, `q` is in `d2` of
`actor_nbhd_2 el q` if and only if some pair `(q, e)` occurs in at least two
distinct rows of `el`; hence `q` is not in `d2` when `el` has no repeated rows. -/
theorem self_inclusion_condition (el : EdgeList) (q : Int) :
    (q ∈ (actor_nbhd_2 el q).d2 ↔ ∃ e : Int, 2 ≤ el.count (q, e)) ∧
    (q ∈ (actor_nbhd_2 el q).d2 ↔
      ∃ (e : Int) (i j : Nat), i ≠ j ∧ el[i]? = some (q, e) ∧ el[j]? = some (q, e)) ∧
    (el.Nodup → q ∉ (actor_nbhd_2 el q).d2) := by
  refine ⟨self_mem_actor_nbhd_2_d2 el q, ?_, ?_⟩
  · rw [self_mem_actor_nbhd_2_d2]
    constructor
    · rintro ⟨e, he⟩
      obtain ⟨i, j, hi, hj, hne, ⟨hi0, hi1⟩, ⟨hj0, hj1⟩⟩ := (two_le_count_iff el q e).mp he
      unfold nrow at hi hj
      unfold col0 at hi0 hj0
      unfold col1 at hi1 hj1
      rw [List.getD_eq_getElem _ _ hi] at hi0 hi1
      rw [List.getD_eq_getElem _ _ hj] at hj0 hj1
      refine ⟨e, i, j, hne, ?_, ?_⟩
      · rw [List.getElem?_eq_getElem hi]
        exact congrArg some (Prod.ext hi0 hi1)
      · rw [List.getElem?_eq_getElem hj]
        exact congrArg some (Prod.ext hj0 hj1)
    · rintro ⟨e, i, j, hne, hi, hj⟩
      obtain ⟨hi', hri⟩ := List.getElem?_eq_some.mp hi
      obtain ⟨hj', hrj⟩ := List.getElem?_eq_some.mp hj
      refine ⟨e, (two_le_count_iff el q e).mpr ⟨i, j, hi', hj', hne, ?_, ?_⟩⟩
      · unfold col0 col1
        rw [List.getD_eq_getElem _ _ hi', hri]
        exact ⟨rfl, rfl⟩
      · unfold col0 col1
        rw [List.getD_eq_getElem _ _ hj', hrj]
        exact ⟨rfl, rfl⟩
  · intro hnd hq
    obtain ⟨e, he⟩ := (self_mem_actor_nbhd_2_d2 el q).mp hq
    have := List.nodup_iff_count_le_one.mp hnd (q, e)
    rw [count_row_eq] at he
    omega

/-- Instance of C13 on `[(0,10),(1,10),(2,20)]`, which has no repeated row,
with `q = 0`. -/
theorem self_inclusion_condition_witness :
    [((0 : Int), (10 : Int)), (1, 10), (2, 20)].Nodup ∧
    (0 : Int) ∉ (actor_nbhd_2 [(0, 10), (1, 10), (2, 20)] 0).d2 :=
  ⟨by decide, (self_inclusion_condition [(0, 10), (1, 10), (2, 20)] 0).2.2 (by decide)⟩

/-- C14: for every edge list `el` and all distinct actors `p` and `q`, `p` is in
`d2` of `actor_nbhd_2 el q` if and only if `q` is in `d2` of `actor_nbhd_2 el p`. -/
theorem co_attendance_symmetric (el : EdgeList) (p q : Int) (hpq : p ≠ q) :
    p ∈ (actor_nbhd_2 el q).d2 ↔ q ∈ (actor_nbhd_2 el p).d2 := by
  rw [mem_actor_nbhd_2_d2_of_ne el q p hpq, mem_actor_nbhd_2_d2_of_ne el p q (Ne.symm hpq)]
  constructor
  · rintro ⟨e, h1, h2⟩
    exact ⟨e, h2, h1⟩
  · rintro ⟨e, h1, h2⟩
    exact ⟨e, h2, h1⟩

/-- Instance of C14 on `[(0,10),(1,10),(2,20)]` with `p = 1` and `q = 0`. -/
theorem co_attendance_symmetric_witness :
    (1 : Int) ≠ 0 ∧
    ((1 : Int) ∈ (actor_nbhd_2 [(0, 10), (1, 10), (2, 20)] 0).d2 ↔
      (0 : Int) ∈ (actor_nbhd_2 [(0, 10), (1, 10), (2, 20)] 1).d2) :=
  ⟨by decide, co_attendance_symmetric [(0, 10), (1, 10), (2, 20)] 1 0 (by decide)⟩

end Bitriad
